import Mathlib

/-!
Verification of the orn.js persistence-and-query engine (src/orn.js).

The engine stores each collection as a JS array of plain objects, mirrored
to one JSON file.  We embed:

* `Value` — JSON-like field values (the spec's data model: text, number,
  boolean, null, nested mapping, ordered sequence).  JS numbers are modelled
  as integers (the engine's own fields, ids and timestamps, are integral).
* `Obj`   — one record: an insertion-ordered field list, as a JS object
  (keys unique; assigning an existing key keeps its position, a new key is
  appended).
* a heap (`Heap`) of objects addressed by index, because the engine shares
  record objects by reference between the canonical array, query snapshots
  and `OrnRecord` handles; aliasing is observable and several claims are
  about it.
* a JSON printer and parser modelling `JSON.stringify` / `JSON.parse`
  for this value domain (the printer emits no insignificant whitespace —
  the source pretty-prints with indent 2, but the parser skips whitespace,
  so structural round-trip facts are unaffected).
-/

inductive Value where
  | vnull : Value
  | vbool (b : Bool) : Value
  | vnum (n : Int) : Value
  | vstr (s : String) : Value
  | varr (l : List Value) : Value
  | vobj (fields : List (String × Value)) : Value

/-- One record: a JS object, i.e. an insertion-ordered association list. -/
abbrev Obj := List (String × Value)

/-- Property read `o[f]`: an absent key reads as JS `undefined` (`none`). -/
def getField : Obj → String → Option Value
  | [], _ => none
  | (k, v) :: t, f => if k = f then some v else getField t f

/-- Property write `o[f] = v`: an existing key keeps its position, a new key
is appended (JS object key order). -/
def setField : Obj → String → Value → Obj
  | [], f, v => [(f, v)]
  | (k, w) :: t, f, v => if k = f then (k, v) :: t else (k, w) :: setField t f v

/-- JS strict equality `===` on field values.  Primitives compare by value
with no type coercion.  Two composite values (objects/arrays) compare by
reference in JS; a probe value supplied by a caller is a fresh literal, never
reference-equal to a stored object, so composites are modelled as unequal. -/
def veq : Value → Value → Bool
  | .vnull, .vnull => true
  | .vbool a, .vbool b => a == b
  | .vnum a, .vnum b => a == b
  | .vstr a, .vstr b => a == b
  | _, _ => false

/-- Strict equality on possibly-absent operands: `undefined === undefined`
is true in JS, `undefined === v` is false for any value `v`. -/
def strictEqO : Option Value → Option Value → Bool
  | none, none => true
  | some a, some b => veq a b
  | _, _ => false

/-- JS truthiness of a value (`null`, `false`, `0` and `""` are falsy;
objects and arrays are truthy). -/
def truthy : Value → Bool
  | .vnull => false
  | .vbool b => b
  | .vnum n => n != 0
  | .vstr s => s != ""
  | .varr _ => true
  | .vobj _ => true

/-- Lexicographic comparison of strings by character code, as JS `<`
compares strings code unit by code unit. -/
def charsLt : List Char → List Char → Bool
  | [], [] => false
  | [], _ :: _ => true
  | _ :: _, [] => false
  | a :: as, b :: bs =>
    if a.toNat < b.toNat then true
    else if b.toNat < a.toNat then false
    else charsLt as bs

/-- JS relational `<` between two field reads, on the primitive fragment
(numbers numerically, strings lexicographically); comparisons involving
`undefined` or mixed/composite operands are modelled as false, matching the
homogeneous-key use the engine's `orderBy` is specified for. -/
def vlt : Option Value → Option Value → Bool
  | some (.vnum a), some (.vnum b) => a < b
  | some (.vstr a), some (.vstr b) => charsLt a.data b.data
  | _, _ => false

/-! ## JSON text: characters and printer -/

def quoteC : Char := Char.ofNat 34
def backslashC : Char := Char.ofNat 92
def lbrackC : Char := Char.ofNat 91
def rbrackC : Char := Char.ofNat 93
def lbraceC : Char := Char.ofNat 123
def rbraceC : Char := Char.ofNat 125
def commaC : Char := Char.ofNat 44
def colonC : Char := Char.ofNat 58

def isDigitC (c : Char) : Bool := 48 ≤ c.toNat && c.toNat ≤ 57

def isWsC (c : Char) : Bool := c.toNat = 32 || c.toNat = 10 || c.toNat = 9 || c.toNat = 13

/-- Decimal digits of `n`, most significant first, by repeated division;
the fuel argument makes the recursion structural (`n` itself is always
enough fuel, since a number has at most as many digits as its value). -/
def natCharsAux : Nat → Nat → List Char
  | 0, _ => []
  | fuel + 1, n =>
    if n = 0 then [] else natCharsAux fuel (n / 10) ++ [Char.ofNat (48 + n % 10)]

def printNat (n : Nat) : List Char :=
  if n = 0 then [Char.ofNat 48] else natCharsAux n n

def printInt : Int → List Char
  | .ofNat m => printNat m
  | .negSucc m => '-' :: printNat (m + 1)

/-- JSON string-body escaping: quote and backslash are escaped with a
backslash; every other character is emitted literally.  (`JSON.stringify`
additionally escapes control characters; since the parser accepts them
either way, that is immaterial to the structural round-trip.) -/
def escapeChars : List Char → List Char
  | [] => []
  | c :: cs =>
    (if c = quoteC || c = backslashC then [backslashC, c] else [c]) ++ escapeChars cs

def printString (s : String) : List Char :=
  quoteC :: escapeChars s.data ++ [quoteC]

mutual
/-- Serialize one value to JSON text (as `JSON.stringify`, minus
insignificant whitespace). -/
def printValue : Value → List Char
  | .vnull => ['n', 'u', 'l', 'l']
  | .vbool true => ['t', 'r', 'u', 'e']
  | .vbool false => ['f', 'a', 'l', 's', 'e']
  | .vnum n => printInt n
  | .vstr s => printString s
  | .varr l => lbrackC :: printElems l ++ [rbrackC]
  | .vobj fs => lbraceC :: printFields fs ++ [rbraceC]

/-- The comma-separated element list of a printed JSON array. -/
def printElems : List Value → List Char
  | [] => []
  | [v] => printValue v
  | v :: w :: t => printValue v ++ commaC :: printElems (w :: t)

/-- The comma-separated member list of a printed JSON object. -/
def printFields : List (String × Value) → List Char
  | [] => []
  | [(k, v)] => printString k ++ colonC :: printValue v
  | (k, v) :: p :: t => printString k ++ colonC :: printValue v ++ commaC :: printFields (p :: t)
end

/-- A collection's on-disk image: the canonical record array serialized as
one JSON document (`JSON.stringify(this.data, null, 2)`; indentation is
insignificant whitespace and is not emitted by the model printer). -/
def stringify (records : List Obj) : String :=
  String.mk (printValue (Value.varr (records.map Value.vobj)))

/-! ## JSON parser (modelling `JSON.parse`)

A recursive-descent parser over the character list, with a fuel argument
for termination; `jsonParse` supplies fuel exceeding the input length,
which suffices for every printable value (proved below for the printer's
output).  Whitespace between tokens is skipped, so the indented output of
the source's `JSON.stringify(data, null, 2)` parses identically to the
model printer's compact output.  Numbers are integers in this value domain,
so the parser reads an optional sign and a digit run. -/

def skipWs : List Char → List Char
  | [] => []
  | c :: cs => if isWsC c then skipWs cs else c :: cs

/-- Split a leading run of decimal digits from the input. -/
def takeDigits : List Char → List Char × List Char
  | [] => ([], [])
  | c :: cs =>
    if isDigitC c then
      let p := takeDigits cs
      (c :: p.1, p.2)
    else ([], c :: cs)

def charsToNat (ds : List Char) : Nat :=
  Nat.ofDigits 10 ((ds.map (fun c => c.toNat - 48)).reverse)

/-- Parse a string body (after the opening quote), up to and including the
closing quote, undoing the printer's escaping. -/
def parseStrChars : List Char → Option (List Char × List Char)
  | [] => none
  | c :: cs =>
    if c = quoteC then some ([], cs)
    else if c = backslashC then
      match cs with
      | [] => none
      | d :: cs' =>
        if d = quoteC || d = backslashC then
          (parseStrChars cs').map (fun p => (d :: p.1, p.2))
        else none
    else (parseStrChars cs).map (fun p => (c :: p.1, p.2))

/-- Parse an integer: optional minus sign, then a nonempty digit run. -/
def parseNum (cs : List Char) : Option (Value × List Char) :=
  match cs with
  | [] => none
  | c :: rest =>
    if c = '-' then
      if (takeDigits rest).1 = [] then none
      else some (.vnum (-(charsToNat (takeDigits rest).1 : Int)), (takeDigits rest).2)
    else
      if (takeDigits (c :: rest)).1 = [] then none
      else some (.vnum ((charsToNat (takeDigits (c :: rest)).1 : Nat) : Int),
        (takeDigits (c :: rest)).2)

/-- What a parsing step is asked to produce: one value, the element list of
a nonempty array (consuming the closing bracket), or the member list of a
nonempty object (consuming the closing brace).  The three grammar
productions are one fueled function `parseP`, so that the recursion is
structural on the fuel and the parser evaluates by kernel reduction. -/
inductive PMode where
  | mval : PMode
  | melems : PMode
  | mfields : PMode

inductive POut where
  | pv (v : Value) : POut
  | pl (l : List Value) : POut
  | pf (fs : List (String × Value)) : POut

def parseP : Nat → PMode → List Char → Option (POut × List Char)
  | 0, _, _ => none
  | fuel + 1, .mval, cs =>
    match skipWs cs with
    | [] => none
    | c :: cs' =>
      if c = quoteC then
        (parseStrChars cs').map (fun p => (.pv (.vstr (String.mk p.1)), p.2))
      else if c = lbrackC then
        match skipWs cs' with
        | [] => none
        | d :: cs'' =>
          if d = rbrackC then some (.pv (.varr []), cs'')
          else
            match parseP fuel .melems (d :: cs'') with
            | some (.pl l, r) => some (.pv (.varr l), r)
            | _ => none
      else if c = lbraceC then
        match skipWs cs' with
        | [] => none
        | d :: cs'' =>
          if d = rbraceC then some (.pv (.vobj []), cs'')
          else
            match parseP fuel .mfields (d :: cs'') with
            | some (.pf fs, r) => some (.pv (.vobj fs), r)
            | _ => none
      else if c = 'n' then
        match cs' with
        | 'u' :: 'l' :: 'l' :: rest => some (.pv .vnull, rest)
        | _ => none
      else if c = 't' then
        match cs' with
        | 'r' :: 'u' :: 'e' :: rest => some (.pv (.vbool true), rest)
        | _ => none
      else if c = 'f' then
        match cs' with
        | 'a' :: 'l' :: 's' :: 'e' :: rest => some (.pv (.vbool false), rest)
        | _ => none
      else if c = '-' || isDigitC c then
        (parseNum (c :: cs')).map (fun p => (.pv p.1, p.2))
      else none
  | fuel + 1, .melems, cs =>
    match parseP fuel .mval cs with
    | some (.pv v, r) =>
      (match skipWs r with
      | [] => none
      | c :: r' =>
        if c = commaC then
          match parseP fuel .melems r' with
          | some (.pl l, r'') => some (.pl (v :: l), r'')
          | _ => none
        else if c = rbrackC then some (.pl [v], r')
        else none)
    | _ => none
  | fuel + 1, .mfields, cs =>
    match skipWs cs with
    | [] => none
    | c :: cs' =>
      if c = quoteC then
        match parseStrChars cs' with
        | none => none
        | some (k, r) =>
          match skipWs r with
          | [] => none
          | d :: r' =>
            if d = colonC then
              match parseP fuel .mval r' with
              | some (.pv v, r'') =>
                (match skipWs r'' with
                | [] => none
                | e :: r''' =>
                  if e = commaC then
                    match parseP fuel .mfields r''' with
                    | some (.pf fs, r4) => some (.pf ((String.mk k, v) :: fs), r4)
                    | _ => none
                  else if e = rbraceC then some (.pf [(String.mk k, v)], r''')
                  else none)
              | _ => none
            else none
      else none

/-- `JSON.parse`: parse one value and require only whitespace to remain.
Fuel one more than the input length is enough for anything the printer
emits (`parse_printValue` below needs only fuel exceeding the printed
length). -/
def jsonParse (s : String) : Option Value :=
  match parseP (s.data.length + 1) .mval s.data with
  | some (.pv v, rest) => if skipWs rest = [] then some v else none
  | _ => none

/-- Interpret the elements of a parsed array as record objects. -/
def decodeObjs : List Value → Option (List Obj)
  | [] => some []
  | .vobj fs :: t => (decodeObjs t).map (fs :: ·)
  | _ => none

/-- Interpret a parsed document as a record sequence: the engine stores a
collection as a JSON array of objects. -/
def decodeRecords : Value → Option (List Obj)
  | .varr l => decodeObjs l
  | _ => none

/-! ## Record store (file adapter)

`OrnCollection._save` writes `JSON.stringify(this.data, null, 2)` to the
collection's file; `OrnCollection._load` reads the file if it exists and
sets `this.data = raw ? JSON.parse(raw) : []`.  The file is modelled as
`Option String` (`none` = no file).  A `JSON.parse` failure
(`SyntaxError`, the spec's `CorruptDataError`) propagates to the caller,
modelled as `Except`. -/

inductive LoadErr where
  | corruptData : LoadErr

/-- Write the full record sequence as the file's new contents. -/
def storeSave (records : List Obj) : Option String :=
  some (stringify records)

/-- `_load`: absent file or empty file give the empty sequence; otherwise
the raw text must parse (else `CorruptDataError`) and is interpreted as the
record array.  (The source assigns whatever `JSON.parse` returned without
checking it is an array of objects; documents of any other shape are
outside the collection data model and are mapped to `corruptData` here —
no claim depends on that corner.) -/
def loadFile : Option String → Except LoadErr (List Obj)
  | none => .ok []
  | some raw =>
    if raw = "" then .ok []
    else
      match jsonParse raw with
      | none => .error .corruptData
      | some v =>
        match decodeRecords v with
        | some rs => .ok rs
        | none => .error .corruptData

/-! ## Heap, collection, record handle

The engine shares record objects by reference: `create` pushes the very
argument object into `this.data`, `OrnRecord` stores `this.obj = obj`
without copying, and query snapshots are shallow copies (`[...this.data]`)
whose elements are the canonical objects.  We therefore model a heap of
objects addressed by index; the canonical sequence `data` is a list of
addresses, exactly as a JS array of object references. -/

abbrev Addr := Nat
abbrev Heap := List Obj

/-- Dereference an object (out-of-range addresses never arise in runs of
the engine; they default to the empty object). -/
def readObj (h : Heap) (a : Addr) : Obj := h.getD a []

def writeObj (h : Heap) (a : Addr) (o : Obj) : Heap := h.set a o

/-- A property assignment `h[a][f] = v` through a reference. -/
def heapSetField (h : Heap) (a : Addr) (f : String) (v : Value) : Heap :=
  writeObj h a (setField (readObj h a) f v)

/-- Dereference the canonical sequence into the record values it denotes
(what serialization sees). -/
def derefAll (h : Heap) (l : List Addr) : List Obj := l.map (readObj h)

/-- `OrnCollection`'s mutable state: the canonical in-memory sequence
(`this.data`, a list of object references) and the backing file. -/
structure Collection where
  data : List Addr
  file : Option String

/-- `OrnCollection._save()`: rewrite the whole backing file from the
canonical sequence. -/
def collSave (h : Heap) (data : List Addr) : Collection :=
  ⟨data, storeSave (derefAll h data)⟩

/-- `new OrnRecord(collection, obj)`: the handle keeps the object
reference (`this.obj = obj`) and also copies the object's top-level
properties onto itself (`Object.assign(this, obj)`) — `assigned` is that
construction-time copy. -/
structure RecordH where
  objAddr : Addr
  assigned : Obj

def mkRecord (h : Heap) (a : Addr) : RecordH := ⟨a, readObj h a⟩

/-- `obj.id = obj.id || crypto.randomUUID()` then the two timestamp
assignments of `OrnCollection.create`.  `gen` stands for the freshly
generated UUID string, `now` for `Date.now()`. -/
def createObj (gen : Value) (now : Int) (o : Obj) : Obj :=
  let idv : Value :=
    match getField o "id" with
    | some x => if truthy x then x else gen
    | none => gen
  setField (setField (setField o "id" idv) "_createdAt" (.vnum now)) "_updatedAt" (.vnum now)

/-- `OrnCollection.create(obj)`: mutate the argument object in place,
push that same reference onto `this.data`, persist, and return a handle
wrapping the same object. -/
def create (h : Heap) (st : Collection) (a : Addr) (gen : Value) (now : Int) :
    Heap × Collection × RecordH :=
  let h' := writeObj h a (createObj gen now (readObj h a))
  let data' := st.data ++ [a]
  (h', collSave h' data', mkRecord h' a)

/-- The id-match predicate `r.id === this.obj.id` used by `save` and
(negated) by `delete`. -/
def idMatches (h : Heap) (myId : Option Value) (a : Addr) : Bool :=
  strictEqO (getField (readObj h a) "id") myId

/-- `OrnRecord.save()`: stamp `_updatedAt` on the shared object, overwrite
the canonical entry found by id (`findIndex`), else append; persist;
return the same handle. -/
def saveRec (h : Heap) (st : Collection) (r : RecordH) (now : Int) :
    Heap × Collection × RecordH :=
  let h' := heapSetField h r.objAddr "_updatedAt" (.vnum now)
  let myId := getField (readObj h' r.objAddr) "id"
  let data' :=
    match st.data.findIdx? (idMatches h' myId) with
    | some i => st.data.set i r.objAddr
    | none => st.data ++ [r.objAddr]
  (h', collSave h' data', r)

/-- The exact predicate `save` passes to `findIndex`: entry id strict-equals
the handle object's id, read after the `_updatedAt` stamp. -/
def savePred (h : Heap) (r : RecordH) (now : Int) : Addr → Bool :=
  idMatches (heapSetField h r.objAddr "_updatedAt" (.vnum now))
    (getField (readObj (heapSetField h r.objAddr "_updatedAt" (.vnum now)) r.objAddr) "id")

/-- `OrnRecord.delete()`: drop every canonical entry whose id strict-equals
the handle's id, persist.  Total — never raises. -/
def deleteRec (h : Heap) (st : Collection) (r : RecordH) : Collection :=
  let myId := getField (readObj h r.objAddr) "id"
  collSave h (st.data.filter (fun a => !(idMatches h myId a)))

/-! ## Query builder

`find()` snapshots the canonical sequence (`[...this.data]`, a shallow
copy sharing the element references); the chainable methods below rewrite
the snapshot.  The claims about them concern the record values, so they
are stated on the dereferenced snapshot (`List Obj`). -/

/-- `OrnQuery.where(field, value)` (and `OrnCollection.where`): keep the
entries whose `field` is strict-equal to `value`.  (`where` is a reserved
word in Lean.) -/
def whereQ (f : String) (v : Value) (s : List Obj) : List Obj :=
  s.filter (fun r => strictEqO (getField r f) (some v))

/-- The comparator passed to `Array.prototype.sort` by
`OrnQuery.orderBy`. -/
def jsComp (f : String) (desc : Bool) (a b : Obj) : Int :=
  if vlt (getField a f) (getField b f) then (if desc then 1 else -1)
  else if vlt (getField b f) (getField a f) then (if desc then -1 else 1)
  else 0

/-- Insert into a sorted list: the inserted element goes before the first
element it need not follow (`comparator ≤ 0`), i.e. after every earlier
element it ties with — the placement a stable sort gives an element
arriving after the list. -/
def insertComp (le : Obj → Obj → Bool) (x : Obj) : List Obj → List Obj
  | [] => [x]
  | y :: t => if le x y then x :: y :: t else y :: insertComp le x t

/-- Stable sort by a comparator.  ECMAScript requires
`Array.prototype.sort` to be stable; insertion sort realizes that
specification. -/
def sortComp (le : Obj → Obj → Bool) : List Obj → List Obj
  | [] => []
  | x :: t => insertComp le x (sortComp le t)

/-- `OrnQuery.orderBy(field, desc)`. -/
def orderBy (f : String) (desc : Bool) (s : List Obj) : List Obj :=
  sortComp (fun a b => jsComp f desc a b ≤ 0) s

/-- `OrnQuery.limit(n)`: `slice(0, n)`. -/
def limitQ (n : Nat) (s : List Obj) : List Obj := s.take n

/-- The next character (if any) is not a decimal digit, so a just-parsed
number cannot be extended by the remaining input. -/
def notDigitStart : List Char → Prop
  | [] => True
  | c :: _ => isDigitC c = false

/-- A character that can begin a printed JSON value: not whitespace and not
one of the closing/separator tokens the parser dispatches on after a
value. -/
def goodHead (c : Char) : Prop :=
  isWsC c = false ∧ ¬(c = rbrackC) ∧ ¬(c = rbraceC) ∧ ¬(c = commaC) ∧ ¬(c = colonC)

instance (c : Char) : Decidable (goodHead c) := by
  unfold goodHead
  exact inferInstance

/-! ## Association-list lemmas -/

theorem getField_setField_self (o : Obj) (f : String) (v : Value) :
    getField (setField o f v) f = some v := by
  induction o with
  | nil => simp [getField, setField]
  | cons kv t ih =>
    obtain ⟨k, w⟩ := kv
    by_cases h : k = f
    · simp [getField, setField, h]
    · simp [getField, setField, h, ih]

theorem getField_setField_ne (o : Obj) (f g : String) (v : Value) (h : g ≠ f) :
    getField (setField o f v) g = getField o g := by
  have hfg : ¬(f = g) := fun hh => h hh.symm
  induction o with
  | nil => simp [getField, setField, hfg]
  | cons kv t ih =>
    obtain ⟨k, w⟩ := kv
    by_cases hk : k = f
    · simp [getField, setField, hk, hfg]
    · simp [getField, setField, hk, ih]

/-! ## Decimal digits round-trip -/

theorem charsToNat_append (ds : List Char) (c : Char) :
    charsToNat (ds ++ [c]) = 10 * charsToNat ds + (c.toNat - 48) := by
  unfold charsToNat
  rw [List.map_append, List.reverse_append]
  simp [Nat.ofDigits_cons]
  ring

theorem toNat_digitChar (d : Nat) (h : d < 10) : (Char.ofNat (48 + d)).toNat = 48 + d := by
  interval_cases d <;> decide

theorem isDigitC_digitChar (d : Nat) (h : d < 10) : isDigitC (Char.ofNat (48 + d)) = true := by
  interval_cases d <;> decide

theorem natCharsAux_all_digits : ∀ fuel n, (natCharsAux fuel n).all isDigitC = true := by
  intro fuel
  induction fuel with
  | zero => intro n; simp [natCharsAux]
  | succ fuel ih =>
    intro n
    by_cases h0 : n = 0
    · simp [natCharsAux, h0]
    · rw [natCharsAux, if_neg h0, List.all_append]
      simp [ih, isDigitC_digitChar _ (Nat.mod_lt n (by norm_num))]

theorem charsToNat_natCharsAux (n : Nat) : ∀ fuel, n ≤ fuel →
    charsToNat (natCharsAux fuel n) = n := by
  induction n using Nat.strong_induction_on with
  | _ n ih =>
    intro fuel hf
    match fuel with
    | 0 =>
      have h0 : n = 0 := Nat.le_zero.mp hf
      subst h0
      decide
    | fuel + 1 =>
      by_cases h0 : n = 0
      · subst h0
        rw [natCharsAux, if_pos rfl]
        decide
      · rw [natCharsAux, if_neg h0, charsToNat_append]
        have hlt : n / 10 < n := Nat.div_lt_self (Nat.pos_of_ne_zero h0) (by norm_num)
        rw [ih (n / 10) hlt fuel (by omega)]
        rw [toNat_digitChar _ (Nat.mod_lt n (by norm_num))]
        omega

theorem natCharsAux_ne_nil (fuel n : Nat) (h0 : n ≠ 0) (hf : n ≤ fuel) :
    natCharsAux fuel n ≠ [] := by
  match fuel with
  | 0 => omega
  | fuel + 1 =>
    rw [natCharsAux, if_neg h0]
    simp

theorem printNat_all_digits (n : Nat) : (printNat n).all isDigitC = true := by
  by_cases h0 : n = 0
  · subst h0
    decide
  · rw [printNat, if_neg h0]
    exact natCharsAux_all_digits n n

theorem printNat_ne_nil (n : Nat) : printNat n ≠ [] := by
  by_cases h0 : n = 0
  · subst h0
    decide
  · rw [printNat, if_neg h0]
    exact natCharsAux_ne_nil n n h0 le_rfl

theorem charsToNat_printNat (n : Nat) : charsToNat (printNat n) = n := by
  by_cases h0 : n = 0
  · subst h0
    decide
  · rw [printNat, if_neg h0]
    exact charsToNat_natCharsAux n n le_rfl

theorem takeDigits_append (ds rest : List Char) (hd : ds.all isDigitC = true)
    (hr : notDigitStart rest) : takeDigits (ds ++ rest) = (ds, rest) := by
  induction ds with
  | nil =>
    cases rest with
    | nil => rfl
    | cons c t =>
      have : isDigitC c = false := hr
      simp [takeDigits, this]
  | cons c t ih =>
    rw [List.all_cons, Bool.and_eq_true] at hd
    simp [takeDigits, hd.1, ih hd.2]

theorem isWsC_false_of_digit (c : Char) (h : isDigitC c = true) : isWsC c = false := by
  simp [isDigitC] at h
  simp [isWsC]
  omega

theorem ne_of_digit (c x : Char) (h : isDigitC c = true) (hx : isDigitC x = false) :
    ¬(c = x) := by
  intro he
  subst he
  rw [h] at hx
  cases hx

theorem parseNum_printNat (m : Nat) (rest : List Char) (hr : notDigitStart rest) :
    parseNum (printNat m ++ rest) = some (.vnum (m : Int), rest) := by
  obtain ⟨c, t, hct⟩ : ∃ c t, printNat m = c :: t := by
    cases h : printNat m with
    | nil => exact absurd h (printNat_ne_nil m)
    | cons c t => exact ⟨c, t, rfl⟩
  have hall := printNat_all_digits m
  have hdig : isDigitC c = true := by
    rw [hct, List.all_cons, Bool.and_eq_true] at hall
    exact hall.1
  have htake : takeDigits (printNat m ++ rest) = (printNat m, rest) :=
    takeDigits_append _ _ (printNat_all_digits m) hr
  rw [hct] at htake ⊢
  rw [List.cons_append]
  simp only [parseNum]
  rw [if_neg (ne_of_digit c '-' hdig (by decide))]
  rw [← List.cons_append, htake]
  simp only []
  rw [if_neg (by rw [← hct]; exact printNat_ne_nil m)]
  rw [← hct, charsToNat_printNat]

theorem parseNum_printInt (n : Int) (rest : List Char) (hr : notDigitStart rest) :
    parseNum (printInt n ++ rest) = some (.vnum n, rest) := by
  cases n with
  | ofNat m => exact parseNum_printNat m rest hr
  | negSucc m =>
    have htake : takeDigits (printNat (m + 1) ++ rest) = (printNat (m + 1), rest) :=
      takeDigits_append _ _ (printNat_all_digits _) hr
    show parseNum (('-' :: printNat (m + 1)) ++ rest) = _
    rw [List.cons_append]
    simp only [parseNum]
    rw [if_pos trivial, htake]
    simp only []
    rw [if_neg (printNat_ne_nil (m + 1)), charsToNat_printNat]
    have : (-((m + 1 : Nat) : Int)) = Int.negSucc m := by
      rw [Int.negSucc_eq]
      push_cast
      ring
    rw [this]

theorem parseStrChars_escape (l rest : List Char) :
    parseStrChars (escapeChars l ++ quoteC :: rest) = some (l, rest) := by
  induction l with
  | nil =>
    rw [escapeChars, List.nil_append, parseStrChars.eq_def]
    simp
  | cons c t ih =>
    by_cases hq : c = quoteC
    · rw [escapeChars, if_pos (by simp [hq]), List.append_assoc, List.cons_append,
        List.cons_append, parseStrChars.eq_def]
      simp [(by decide : ¬(backslashC = quoteC)), hq, ih]
    · by_cases hb : c = backslashC
      · rw [escapeChars, if_pos (by simp [hb]), List.append_assoc, List.cons_append,
          List.cons_append, parseStrChars.eq_def]
        simp [(by decide : ¬(backslashC = quoteC)), hb, ih]
      · rw [escapeChars, if_neg (by simp [hq, hb]), List.singleton_append,
          List.cons_append, parseStrChars.eq_def]
        simp [hq, hb, ih]

theorem skipWs_not_ws (c : Char) (cs : List Char) (h : isWsC c = false) :
    skipWs (c :: cs) = c :: cs := by
  rw [skipWs.eq_def]
  simp [h]

theorem notDigitStart_cons (c : Char) (X : List Char) (h : isDigitC c = false) :
    notDigitStart (c :: X) := h

theorem goodHead_of_digit (c : Char) (h : isDigitC c = true) : goodHead c :=
  ⟨isWsC_false_of_digit c h, ne_of_digit c _ h (by decide), ne_of_digit c _ h (by decide),
    ne_of_digit c _ h (by decide), ne_of_digit c _ h (by decide)⟩

theorem printNat_shape (m : Nat) : ∃ c t, printNat m = c :: t ∧ isDigitC c = true := by
  cases h : printNat m with
  | nil => exact absurd h (printNat_ne_nil m)
  | cons c t =>
    have hall := printNat_all_digits m
    rw [h, List.all_cons, Bool.and_eq_true] at hall
    exact ⟨c, t, rfl, hall.1⟩

theorem printInt_shape (n : Int) :
    ∃ c t, printInt n = c :: t ∧ (c = '-' ∨ isDigitC c = true) := by
  cases n with
  | ofNat m =>
    obtain ⟨c, t, h, hd⟩ := printNat_shape m
    exact ⟨c, t, h, Or.inr hd⟩
  | negSucc m => exact ⟨'-', printNat (m + 1), rfl, Or.inl rfl⟩

theorem printValue_shape (v : Value) : ∃ c tail, printValue v = c :: tail ∧ goodHead c := by
  cases v with
  | vnull => exact ⟨'n', ['u', 'l', 'l'], by simp [printValue], by decide⟩
  | vbool b =>
    cases b
    · exact ⟨'f', ['a', 'l', 's', 'e'], by simp [printValue], by decide⟩
    · exact ⟨'t', ['r', 'u', 'e'], by simp [printValue], by decide⟩
  | vnum n =>
    obtain ⟨c, t, h, hd⟩ := printInt_shape n
    refine ⟨c, t, by simp [printValue, h], ?_⟩
    rcases hd with rfl | hdig
    · decide
    · exact goodHead_of_digit c hdig
  | vstr s =>
    exact ⟨quoteC, escapeChars s.data ++ [quoteC], by simp [printValue, printString], by decide⟩
  | varr l => exact ⟨lbrackC, printElems l ++ [rbrackC], by simp [printValue], by decide⟩
  | vobj fs => exact ⟨lbraceC, printFields fs ++ [rbraceC], by simp [printValue], by decide⟩

theorem printValue_length_pos (v : Value) : 1 ≤ (printValue v).length := by
  obtain ⟨c, t, h, _⟩ := printValue_shape v
  rw [h]
  simp

theorem printElems_shape (l : List Value) (h : l ≠ []) :
    ∃ c Y, printElems l = c :: Y ∧ goodHead c := by
  match l with
  | [v] =>
    obtain ⟨c, t, hv, hg⟩ := printValue_shape v
    exact ⟨c, t, by simp [printElems, hv], hg⟩
  | v :: w :: t =>
    obtain ⟨c, t', hv, hg⟩ := printValue_shape v
    exact ⟨c, t' ++ commaC :: printElems (w :: t),
      by simp [printElems, hv], hg⟩

theorem printFields_shape (fs : List (String × Value)) (h : fs ≠ []) :
    ∃ Y, printFields fs = quoteC :: Y := by
  match fs with
  | [(k, v)] =>
    exact ⟨escapeChars k.data ++ [quoteC] ++ (colonC :: printValue v),
      by simp [printFields, printString]⟩
  | (k, v) :: p :: t =>
    exact ⟨escapeChars k.data ++ [quoteC] ++ (colonC :: printValue v) ++
      (commaC :: printFields (p :: t)), by simp [printFields, printString]⟩

/-! ## Parser dispatch lemmas (one per head-character class) -/

theorem parseP_mval_quote (m : Nat) (X : List Char) :
    parseP (m + 1) .mval (quoteC :: X) =
      (parseStrChars X).map (fun p => (.pv (.vstr (String.mk p.1)), p.2)) := rfl

theorem parseP_mval_arr (m : Nat) (d : Char) (X : List Char) (hw : isWsC d = false)
    (hd : ¬(d = rbrackC)) :
    parseP (m + 1) .mval (lbrackC :: d :: X) =
      (match parseP m .melems (d :: X) with
       | some (.pl l, r) => some (.pv (.varr l), r)
       | _ => none) := by
  simp only [parseP]
  rw [skipWs_not_ws _ _ (by decide)]
  simp only [if_neg (by decide : ¬(lbrackC = quoteC)), if_pos (rfl : lbrackC = lbrackC)]
  rw [skipWs_not_ws d X hw]
  simp only [if_neg hd]
  rw [if_pos trivial]

theorem parseP_mval_obj (m : Nat) (d : Char) (X : List Char) (hw : isWsC d = false)
    (hd : ¬(d = rbraceC)) :
    parseP (m + 1) .mval (lbraceC :: d :: X) =
      (match parseP m .mfields (d :: X) with
       | some (.pf fs, r) => some (.pv (.vobj fs), r)
       | _ => none) := by
  simp only [parseP]
  rw [skipWs_not_ws _ _ (by decide)]
  simp only [if_neg (by decide : ¬(lbraceC = quoteC)), if_neg (by decide : ¬(lbraceC = lbrackC)),
    if_pos (rfl : lbraceC = lbraceC)]
  rw [skipWs_not_ws d X hw]
  simp only [if_neg hd]
  rw [if_pos trivial]

theorem parseP_mval_num (m : Nat) (c : Char) (X : List Char)
    (hc : c = '-' ∨ isDigitC c = true) :
    parseP (m + 1) .mval (c :: X) = (parseNum (c :: X)).map (fun p => (.pv p.1, p.2)) := by
  have hw : isWsC c = false := by
    rcases hc with rfl | hdig
    · decide
    · exact isWsC_false_of_digit c hdig
  have hq : ¬(c = quoteC) := by
    rcases hc with rfl | hdig
    · decide
    · exact ne_of_digit c _ hdig (by decide)
  have hlk : ¬(c = lbrackC) := by
    rcases hc with rfl | hdig
    · decide
    · exact ne_of_digit c _ hdig (by decide)
  have hlc : ¬(c = lbraceC) := by
    rcases hc with rfl | hdig
    · decide
    · exact ne_of_digit c _ hdig (by decide)
  have hn : ¬(c = 'n') := by
    rcases hc with rfl | hdig
    · decide
    · exact ne_of_digit c _ hdig (by decide)
  have ht : ¬(c = 't') := by
    rcases hc with rfl | hdig
    · decide
    · exact ne_of_digit c _ hdig (by decide)
  have hf : ¬(c = 'f') := by
    rcases hc with rfl | hdig
    · decide
    · exact ne_of_digit c _ hdig (by decide)
  have hcond : (decide (c = '-') || isDigitC c) = true := by
    rcases hc with rfl | hdig
    · simp
    · simp [hdig]
  simp only [parseP]
  rw [skipWs_not_ws c X hw]
  simp only [if_neg hq, if_neg hlk, if_neg hlc, if_neg hn, if_neg ht, if_neg hf, hcond,
    if_pos trivial]

/-- The parser inverts the printer: with enough fuel, parsing a printed
value (or element/member list) consumes exactly the printed text.  The
three parts mirror the three parsing modes and are proved by strong
induction on the fuel. -/
theorem parseP_print : ∀ fuel : Nat,
    (∀ v rest, (printValue v).length < fuel → notDigitStart rest →
      parseP fuel .mval (printValue v ++ rest) = some (.pv v, rest)) ∧
    (∀ l rest, l ≠ [] → (printElems l).length + 1 < fuel →
      parseP fuel .melems (printElems l ++ rbrackC :: rest) = some (.pl l, rest)) ∧
    (∀ fs rest, fs ≠ [] → (printFields fs).length + 1 < fuel →
      parseP fuel .mfields (printFields fs ++ rbraceC :: rest) = some (.pf fs, rest)) := by
  intro fuel
  induction fuel using Nat.strong_induction_on with
  | _ fuel ih =>
    refine ⟨?_, ?_, ?_⟩
    · intro v rest hlen hrest
      obtain ⟨m, rfl⟩ : ∃ m, fuel = m + 1 := ⟨fuel - 1, by omega⟩
      cases v with
      | vnull =>
        rw [show printValue .vnull = ['n', 'u', 'l', 'l'] from by simp [printValue]]
        rfl
      | vbool b =>
        cases b
        · rw [show printValue (.vbool false) = ['f', 'a', 'l', 's', 'e'] from by
            simp [printValue]]
          rfl
        · rw [show printValue (.vbool true) = ['t', 'r', 'u', 'e'] from by simp [printValue]]
          rfl
      | vnum n =>
        rw [show printValue (.vnum n) = printInt n from by simp [printValue]]
        obtain ⟨c, t, hct, hc⟩ := printInt_shape n
        rw [hct, List.cons_append, parseP_mval_num m c (t ++ rest) hc, ← List.cons_append,
          ← hct, parseNum_printInt n rest hrest]
        rfl
      | vstr s =>
        obtain ⟨sd⟩ := s
        rw [show printValue (.vstr (String.mk sd)) = quoteC :: (escapeChars sd ++ [quoteC])
          from by simp [printValue, printString]]
        rw [List.cons_append, parseP_mval_quote, List.append_assoc, List.singleton_append,
          parseStrChars_escape]
        rfl
      | varr l =>
        cases l with
        | nil =>
          rw [show printValue (.varr []) = [lbrackC, rbrackC] from by
            simp [printValue, printElems]]
          rfl
        | cons v1 t =>
          have hlne : (v1 :: t : List Value) ≠ [] := by simp
          obtain ⟨c1, Y, hel, hg⟩ := printElems_shape (v1 :: t) hlne
          have hpv : printValue (.varr (v1 :: t)) =
              lbrackC :: printElems (v1 :: t) ++ [rbrackC] := by
            simp [printValue]
          rw [hpv] at hlen
          have hlen2 : (printElems (v1 :: t)).length + 1 < m := by
            simp [List.length_append] at hlen
            omega
          rw [hpv]
          simp only [List.append_assoc, List.cons_append, List.singleton_append,
            List.nil_append]
          rw [hel, List.cons_append,
            parseP_mval_arr m c1 (Y ++ rbrackC :: rest) hg.1 hg.2.1,
            ← List.cons_append, ← hel, (ih m (by omega)).2.1 (v1 :: t) rest hlne hlen2]
      | vobj fs =>
        cases fs with
        | nil =>
          rw [show printValue (.vobj []) = [lbraceC, rbraceC] from by
            simp [printValue, printFields]]
          rfl
        | cons kv t =>
          have hfne : (kv :: t : List (String × Value)) ≠ [] := by simp
          obtain ⟨Y, hfl⟩ := printFields_shape (kv :: t) hfne
          have hpv : printValue (.vobj (kv :: t)) =
              lbraceC :: printFields (kv :: t) ++ [rbraceC] := by
            simp [printValue]
          rw [hpv] at hlen
          have hlen2 : (printFields (kv :: t)).length + 1 < m := by
            simp [List.length_append] at hlen
            omega
          rw [hpv]
          simp only [List.append_assoc, List.cons_append, List.singleton_append,
            List.nil_append]
          rw [hfl, List.cons_append,
            parseP_mval_obj m quoteC (Y ++ rbraceC :: rest) (by decide) (by decide),
            ← List.cons_append, ← hfl, (ih m (by omega)).2.2 (kv :: t) rest hfne hlen2]
    · intro l rest hl hlen
      obtain ⟨m, rfl⟩ : ∃ m, fuel = m + 1 := ⟨fuel - 1, by omega⟩
      cases l with
      | nil => exact absurd rfl hl
      | cons v vs =>
        cases vs with
        | nil =>
          have hpe : printElems [v] = printValue v := by simp [printElems]
          rw [hpe] at hlen ⊢
          simp only [parseP]
          rw [(ih m (by omega)).1 v (rbrackC :: rest) (by omega)
            (notDigitStart_cons _ _ (by decide))]
          simp only []
          rw [skipWs_not_ws _ _ (by decide)]
          simp only [if_neg (by decide : ¬(rbrackC = commaC)), if_pos (rfl : rbrackC = rbrackC)]
          rw [if_pos trivial]
        | cons w t =>
          have hpe : printElems (v :: w :: t) =
              printValue v ++ commaC :: printElems (w :: t) := by
            simp [printElems]
          rw [hpe] at hlen ⊢
          have hvpos := printValue_length_pos v
          have hlenv : (printValue v).length < m := by
            simp [List.length_append] at hlen
            omega
          have hlenE : (printElems (w :: t)).length + 1 < m := by
            simp [List.length_append] at hlen
            omega
          rw [List.append_assoc, List.cons_append]
          simp only [parseP]
          rw [(ih m (by omega)).1 v (commaC :: (printElems (w :: t) ++ rbrackC :: rest)) hlenv
            (notDigitStart_cons _ _ (by decide))]
          simp only []
          rw [skipWs_not_ws _ _ (by decide)]
          simp only [if_pos (rfl : commaC = commaC)]
          rw [(ih m (by omega)).2.1 (w :: t) rest (by simp) hlenE, if_pos trivial]
    · intro fs rest hfs hlen
      obtain ⟨m, rfl⟩ : ∃ m, fuel = m + 1 := ⟨fuel - 1, by omega⟩
      cases fs with
      | nil => exact absurd rfl hfs
      | cons kv fs' =>
        obtain ⟨k, v⟩ := kv
        obtain ⟨kd⟩ := k
        cases fs' with
        | nil =>
          have hpf : printFields [(String.mk kd, v)] =
              (quoteC :: (escapeChars kd ++ [quoteC])) ++ colonC :: printValue v := by
            simp [printFields, printString]
          rw [hpf] at hlen ⊢
          have hlenv : (printValue v).length < m := by
            simp [List.length_append] at hlen
            omega
          simp only [List.append_assoc, List.cons_append, List.singleton_append,
            List.nil_append]
          simp only [parseP]
          rw [skipWs_not_ws _ _ (by decide)]
          simp only [if_pos (rfl : quoteC = quoteC)]
          rw [if_pos trivial,
            parseStrChars_escape kd (colonC :: (printValue v ++ rbraceC :: rest))]
          simp only []
          rw [skipWs_not_ws _ _ (by decide)]
          simp only [if_pos (rfl : colonC = colonC)]
          rw [if_pos trivial, (ih m (by omega)).1 v (rbraceC :: rest) hlenv
            (notDigitStart_cons _ _ (by decide))]
          simp only []
          rw [skipWs_not_ws _ _ (by decide)]
          simp only [if_neg (by decide : ¬(rbraceC = commaC)), if_pos (rfl : rbraceC = rbraceC)]
          rw [if_pos trivial]
        | cons p t =>
          have hpf : printFields ((String.mk kd, v) :: p :: t) =
              (quoteC :: (escapeChars kd ++ [quoteC])) ++
                ((colonC :: printValue v) ++ (commaC :: printFields (p :: t))) := by
            simp [printFields, printString]
          rw [hpf] at hlen ⊢
          have hvpos := printValue_length_pos v
          have hlenv : (printValue v).length < m := by
            simp [List.length_append] at hlen
            omega
          have hlenf : (printFields (p :: t)).length + 1 < m := by
            simp [List.length_append] at hlen
            omega
          simp only [List.append_assoc, List.cons_append, List.singleton_append,
            List.nil_append]
          simp only [parseP]
          rw [skipWs_not_ws _ _ (by decide)]
          simp only [if_pos (rfl : quoteC = quoteC)]
          rw [if_pos trivial, parseStrChars_escape kd
            (colonC :: (printValue v ++ commaC :: (printFields (p :: t) ++ rbraceC :: rest)))]
          simp only []
          rw [skipWs_not_ws _ _ (by decide)]
          simp only [if_pos (rfl : colonC = colonC)]
          rw [if_pos trivial, (ih m (by omega)).1 v
            (commaC :: (printFields (p :: t) ++ rbraceC :: rest)) hlenv
            (notDigitStart_cons _ _ (by decide))]
          simp only []
          rw [skipWs_not_ws _ _ (by decide)]
          simp only [if_pos (rfl : commaC = commaC)]
          rw [if_pos trivial, (ih m (by omega)).2.2 (p :: t) rest (by simp) hlenf]

/-! ## Store round-trip corollaries -/

theorem decodeRecords_encode (rs : List Obj) :
    decodeRecords (.varr (rs.map .vobj)) = some rs := by
  show decodeObjs (rs.map .vobj) = some rs
  induction rs with
  | nil => rfl
  | cons o t ih =>
    show (decodeObjs (t.map .vobj)).map (o :: ·) = some (o :: t)
    rw [ih]
    rfl

theorem stringify_ne_empty (rs : List Obj) : stringify rs ≠ "" := by
  intro h
  have hd : (stringify rs).data = ("" : String).data := by rw [h]
  unfold stringify at hd
  rw [show printValue (.varr (rs.map .vobj)) =
    lbrackC :: printElems (rs.map .vobj) ++ [rbrackC] from by simp [printValue]] at hd
  have : (lbrackC :: printElems (rs.map .vobj) ++ [rbrackC] : List Char) = [] := hd
  simp at this

theorem jsonParse_stringify (rs : List Obj) :
    jsonParse (stringify rs) = some (.varr (rs.map .vobj)) := by
  unfold jsonParse stringify
  have h := (parseP_print ((printValue (.varr (rs.map .vobj))).length + 1)).1
    (.varr (rs.map .vobj)) [] (by omega) trivial
  rw [List.append_nil] at h
  rw [show (String.mk (printValue (.varr (rs.map .vobj)))).data =
    printValue (.varr (rs.map .vobj)) from rfl]
  rw [h]
  rfl

theorem loadFile_storeSave (rs : List Obj) : loadFile (storeSave rs) = .ok rs := by
  show loadFile (some (stringify rs)) = .ok rs
  unfold loadFile
  simp only []
  rw [if_neg (stringify_ne_empty rs), jsonParse_stringify]
  simp only []
  rw [decodeRecords_encode]

/-! ## Strict equality and comparator facts -/

theorem veq_eq (x y : Value) (h : veq x y = true) : x = y := by
  cases x <;> cases y <;> simp_all [veq]

theorem strictEqO_true (o₁ o₂ : Option Value) (h : strictEqO o₁ o₂ = true) : o₁ = o₂ := by
  cases o₁ with
  | none => cases o₂ with
    | none => rfl
    | some b => simp [strictEqO] at h
  | some a => cases o₂ with
    | none => simp [strictEqO] at h
    | some b => exact congrArg some (veq_eq a b h)

theorem charsLt_irrefl (l : List Char) : charsLt l l = false := by
  induction l with
  | nil => rfl
  | cons c t ih => simp [charsLt, ih]

theorem vlt_irrefl (x : Option Value) : vlt x x = false := by
  match x with
  | none => rfl
  | some .vnull => rfl
  | some (.vbool b) => rfl
  | some (.vnum n) => simp [vlt]
  | some (.vstr s) => simp [vlt, charsLt_irrefl]
  | some (.varr l) => rfl
  | some (.vobj fs) => rfl

theorem jsComp_self_key (f : String) (desc : Bool) (a b : Obj)
    (h : getField a f = getField b f) : jsComp f desc a b = 0 := by
  unfold jsComp
  rw [h, vlt_irrefl]
  simp

/-! ## Stable-sort lemmas for the insertion sort realizing
ECMAScript's stable `Array.prototype.sort` -/

theorem mem_insertComp (le : Obj → Obj → Bool) (x a : Obj) (l : List Obj) :
    a ∈ insertComp le x l ↔ a = x ∨ a ∈ l := by
  induction l with
  | nil => simp [insertComp]
  | cons y t ih =>
    by_cases h : le x y = true
    · simp [insertComp, h]
    · simp [insertComp, h, ih]
      tauto

theorem perm_insertComp (le : Obj → Obj → Bool) (x : Obj) (l : List Obj) :
    (insertComp le x l).Perm (x :: l) := by
  induction l with
  | nil => exact List.Perm.refl _
  | cons y t ih =>
    by_cases h : le x y = true
    · simp [insertComp, h]
    · simp only [insertComp, if_neg h]
      exact (ih.cons y).trans (List.Perm.swap x y t)

theorem perm_sortComp (le : Obj → Obj → Bool) (s : List Obj) :
    (sortComp le s).Perm s := by
  induction s with
  | nil => exact List.Perm.refl _
  | cons x t ih =>
    simp only [sortComp]
    exact (perm_insertComp le x (sortComp le t)).trans (ih.cons x)

theorem filter_insertComp_pos (le : Obj → Obj → Bool) (p : Obj → Bool) (x : Obj)
    (hx : p x = true) : ∀ l : List Obj, (∀ y ∈ l, p y = true → le x y = true) →
    (insertComp le x l).filter p = x :: l.filter p := by
  intro l
  induction l with
  | nil => simp [insertComp, hx]
  | cons y t ih =>
    intro hle
    by_cases h : le x y = true
    · simp [insertComp, h, hx]
    · have hpy : p y = false := by
        cases hpy : p y
        · rfl
        · exact absurd (hle y (by simp) hpy) h
      simp only [insertComp, if_neg h, List.filter_cons, hpy]
      simp only [Bool.false_eq_true, if_neg (by simp : ¬False)]
      rw [ih (fun z hz hpz => hle z (by simp [hz]) hpz)]

theorem filter_insertComp_neg (le : Obj → Obj → Bool) (p : Obj → Bool) (x : Obj)
    (hx : p x = false) : ∀ l : List Obj,
    (insertComp le x l).filter p = l.filter p := by
  intro l
  induction l with
  | nil => simp [insertComp, hx]
  | cons y t ih =>
    by_cases h : le x y = true
    · simp [insertComp, h, hx]
    · simp only [insertComp, if_neg h, List.filter_cons]
      rw [ih]

/-- Stability of the sort: for any record predicate on which the comparator
ties (and in particular for "field strict-equals v"), the filtered
subsequence is exactly the input's filtered subsequence — tied entries keep
their relative order. -/
theorem filter_sortComp (le : Obj → Obj → Bool) (p : Obj → Bool)
    (htie : ∀ a b, p a = true → p b = true → le a b = true) (s : List Obj) :
    (sortComp le s).filter p = s.filter p := by
  induction s with
  | nil => rfl
  | cons x t ih =>
    simp only [sortComp]
    cases hx : p x
    · rw [filter_insertComp_neg le p x hx, ih]
      simp [List.filter_cons, hx]
    · rw [filter_insertComp_pos le p x hx (sortComp le t)
        (fun y _ hy => htie x y hx hy), ih]
      simp [List.filter_cons, hx]

theorem pairwise_insertComp (le : Obj → Obj → Bool) (K : Obj → Prop)
    (htot : ∀ a b, K a → K b → le a b = true ∨ le b a = true)
    (htrans : ∀ a b c, K a → K b → K c → le a b = true → le b c = true → le a c = true)
    (x : Obj) (hx : K x) :
    ∀ l : List Obj, (∀ a ∈ l, K a) → List.Pairwise (fun a b => le a b = true) l →
      List.Pairwise (fun a b => le a b = true) (insertComp le x l) := by
  intro l
  induction l with
  | nil =>
    intro _ _
    simp [insertComp]
  | cons y t ih =>
    intro hKl hp
    rw [List.pairwise_cons] at hp
    obtain ⟨hyt, hpt⟩ := hp
    by_cases h : le x y = true
    · simp only [insertComp, if_pos h]
      rw [List.pairwise_cons]
      refine ⟨?_, List.pairwise_cons.mpr ⟨hyt, hpt⟩⟩
      intro b hb
      rcases List.mem_cons.mp hb with rfl | hbt
      · exact h
      · exact htrans x y b hx (hKl y (by simp)) (hKl b (by simp [hbt])) h (hyt b hbt)
    · simp only [insertComp, if_neg h]
      rw [List.pairwise_cons]
      constructor
      · intro b hb
        rcases (mem_insertComp le x b t).mp hb with hbx | hbt
        · rw [hbx]
          rcases htot x y hx (hKl y (by simp)) with hxy | hyx
          · exact absurd hxy h
          · exact hyx
        · exact hyt b hbt
      · exact ih (fun a ha => hKl a (by simp [ha])) hpt

theorem pairwise_sortComp (le : Obj → Obj → Bool) (K : Obj → Prop)
    (htot : ∀ a b, K a → K b → le a b = true ∨ le b a = true)
    (htrans : ∀ a b c, K a → K b → K c → le a b = true → le b c = true → le a c = true)
    (s : List Obj) (hKs : ∀ a ∈ s, K a) :
    List.Pairwise (fun a b => le a b = true) (sortComp le s) := by
  induction s with
  | nil => simp [sortComp]
  | cons x t ih =>
    simp only [sortComp]
    refine pairwise_insertComp le K htot htrans x (hKs x (by simp)) _ ?_ ?_
    · intro a ha
      exact hKs a (by simp [(perm_sortComp le t).mem_iff.mp ha])
    · exact ih (fun a ha => hKs a (by simp [ha]))

/-! ## Heap access lemmas -/

theorem readObj_writeObj_self (h : Heap) (a : Addr) (o : Obj) (ha : a < h.length) :
    readObj (writeObj h a o) a = o := by
  unfold readObj writeObj
  rw [List.getD_eq_getElem?_getD, List.getElem?_set_self ha]
  rfl

theorem readObj_writeObj_ne (h : Heap) (a b : Addr) (o : Obj) (hab : a ≠ b) :
    readObj (writeObj h a o) b = readObj h b := by
  unfold readObj writeObj
  rw [List.getD_eq_getElem?_getD, List.getElem?_set_ne hab, ← List.getD_eq_getElem?_getD]

theorem readObj_heapSetField_self (h : Heap) (a : Addr) (f : String) (v : Value)
    (ha : a < h.length) :
    readObj (heapSetField h a f v) a = setField (readObj h a) f v := by
  unfold heapSetField
  exact readObj_writeObj_self h a _ ha

/-! ## The comparator on numeric keys -/

theorem jsComp_le_num (f : String) (desc : Bool) (a b : Obj) (za zb : Int)
    (ha : getField a f = some (.vnum za)) (hb : getField b f = some (.vnum zb)) :
    (jsComp f desc a b ≤ 0) ↔ (if desc then zb ≤ za else za ≤ zb) := by
  unfold jsComp
  rw [ha, hb]
  simp only [vlt]
  by_cases h1 : za < zb <;> by_cases h2 : zb < za <;> cases desc <;>
    simp [h1, h2] <;> omega

/-! # The claims -/

/-- C5: for every query snapshot and field/value pairs, chained `where`
filters commute — `where(a,1).where(b,2)` equals `where(b,2).where(a,1)` —
and each `where` keeps exactly the entries whose field is strict-equal to
the probe value, preserving their relative order (the result is a sublist
of the snapshot). -/
theorem C5_where (s : List Obj) (a : String) (va : Value) (b : String) (vb : Value) :
    whereQ a va (whereQ b vb s) = whereQ b vb (whereQ a va s) ∧
    (whereQ a va s).Sublist s ∧
    (∀ r, r ∈ whereQ a va s ↔ r ∈ s ∧ strictEqO (getField r a) (some va) = true) := by
  refine ⟨?_, by unfold whereQ; exact List.filter_sublist s,
    fun r => by simp [whereQ, List.mem_filter]⟩
  unfold whereQ
  rw [List.filter_filter, List.filter_filter]
  congr 1
  funext r
  rw [Bool.and_comm]

/-- C7: `limit(n)` truncates the snapshot to its first `n` entries;
`limit(0)` empties any non-empty snapshot, and `limit(n)` with `n` at least
the snapshot length returns the snapshot unchanged. -/
theorem C7_limit (s : List Obj) (n : Nat) :
    limitQ n s = s.take n ∧
    (s ≠ [] → limitQ 0 s = []) ∧
    (s.length ≤ n → limitQ n s = s) :=
  ⟨rfl, fun _ => rfl, fun h => List.take_of_length_le h⟩

/-- C7 witness: `limit(0)` on a non-empty snapshot yields the empty result,
and a limit beyond the snapshot length returns the full snapshot. -/
theorem C7_witness :
    limitQ 0 [[("a", Value.vnum 1)]] = [] ∧
    limitQ 5 [[("a", Value.vnum 1)]] = [[("a", Value.vnum 1)]] :=
  ⟨(C7_limit [[("a", Value.vnum 1)]] 0).2.1 (by simp),
   (C7_limit [[("a", Value.vnum 1)]] 5).2.2 (by simp)⟩

/-- C8: round-trip — persisting any record sequence through the record
store's save and reloading it through load yields a structurally equal
sequence, field for field, in the same order. -/
theorem C8_roundTrip : ∀ rs : List Obj, loadFile (storeSave rs) = .ok rs :=
  loadFile_storeSave

/-- C9: loading gives the empty sequence when the backing file is absent,
the empty collection when the file is present but empty, and propagates
`CorruptDataError` when the stored bytes do not parse. -/
theorem C9_load (raw : String) (hne : raw ≠ "") (hbad : jsonParse raw = none) :
    loadFile none = .ok [] ∧
    loadFile (some "") = .ok [] ∧
    loadFile (some raw) = .error .corruptData := by
  refine ⟨rfl, rfl, ?_⟩
  unfold loadFile
  simp only []
  rw [if_neg hne, hbad]

/-- C9 witness: the malformed text consisting of a lone opening bracket is
nonempty, does not parse, and loading it fails with `CorruptDataError`. -/
theorem C9_witness : loadFile (some "[") = .error .corruptData :=
  (C9_load "[" (by decide) rfl).2.2

/-- C1 counterexample: the claim says a caller-supplied id is kept exactly
as given and a fresh id is assigned only when the caller supplied none.
With the caller-supplied id `""` (a supplied value, but falsy in JS),
`obj.id = obj.id || crypto.randomUUID()` replaces it with the generated
id: the stored id is the generated one and is not strict-equal to the
supplied one. -/
theorem C1_counterexample :
    getField
      (readObj (create [[("id", Value.vstr "")]] ⟨[], none⟩ 0 (Value.vstr "u-1") 5).1 0)
      "id" = some (Value.vstr "u-1") ∧
    strictEqO
      (getField
        (readObj (create [[("id", Value.vstr "")]] ⟨[], none⟩ 0 (Value.vstr "u-1") 5).1 0)
        "id")
      (some (Value.vstr "")) = false :=
  ⟨rfl, rfl⟩

/-- C1 (amended): `create` gives the record an id — keeping a truthy
caller-supplied id and substituting the freshly generated identifier when
the caller-supplied id is absent *or falsy* (`null`, `false`, `0`, `""`,
by JS truthiness) — sets the `_createdAt`/`_updatedAt` timestamps to the
current time, appends the record (the caller's own object) to the end of
the canonical sequence, and persists the full collection before
returning a handle on the stored object. -/
theorem C1_amended (h : Heap) (st : Collection) (a : Addr) (gen : Value) (now : Int)
    (ha : a < h.length) :
    readObj (create h st a gen now).1 a = createObj gen now (readObj h a) ∧
    getField (readObj (create h st a gen now).1 a) "id" =
      some (match getField (readObj h a) "id" with
        | some x => if truthy x then x else gen
        | none => gen) ∧
    getField (readObj (create h st a gen now).1 a) "_createdAt" = some (.vnum now) ∧
    getField (readObj (create h st a gen now).1 a) "_updatedAt" = some (.vnum now) ∧
    (create h st a gen now).2.1.data = st.data ++ [a] ∧
    (create h st a gen now).2.1.file =
      some (stringify (derefAll (create h st a gen now).1 (create h st a gen now).2.1.data)) ∧
    (create h st a gen now).2.2 = mkRecord (create h st a gen now).1 a := by
  have hro : readObj (create h st a gen now).1 a = createObj gen now (readObj h a) :=
    readObj_writeObj_self h a _ ha
  refine ⟨hro, ?_, ?_, ?_, rfl, rfl, rfl⟩
  · rw [hro]
    unfold createObj
    rw [getField_setField_ne _ _ _ _ (by decide), getField_setField_ne _ _ _ _ (by decide),
      getField_setField_self]
  · rw [hro]
    unfold createObj
    rw [getField_setField_ne _ _ _ _ (by decide), getField_setField_self]
  · rw [hro]
    unfold createObj
    rw [getField_setField_self]

/-- C1 witness: creating `[("name","A")]` with generated id `"u"` at time 7
stores id `"u"`, both timestamps 7, and appends the object's reference. -/
theorem C1_witness :
    getField (readObj (create [[("name", Value.vstr "A")]] ⟨[], none⟩ 0
      (Value.vstr "u") 7).1 0) "id" =
      some (match getField (readObj [[("name", Value.vstr "A")]] 0) "id" with
        | some x => if truthy x then x else Value.vstr "u"
        | none => Value.vstr "u") ∧
    (create [[("name", Value.vstr "A")]] ⟨[], none⟩ 0 (Value.vstr "u") 7).2.1.data =
      [] ++ [0] := by
  have hc := C1_amended [[("name", Value.vstr "A")]] ⟨[], none⟩ 0 (Value.vstr "u") 7 (by decide)
  exact ⟨hc.2.1, hc.2.2.2.2.1⟩

/-- C2 counterexample: the claim says each handle holds its own copy of the
field-set, so a mutation through one handle is invisible through another
until `save()`.  In the code `OrnRecord` stores `this.obj = obj` by
reference, so two handles for the same record share the object: writing
field `n` through handle A's object is immediately observable through
handle B's object with no save — the read yields the new value 5, not the
construction-time value 1.  (No save has happened: the collection state is
untouched.) -/
theorem C2_counterexample :
    getField
      (readObj
        (heapSetField [[("id", Value.vstr "x"), ("n", Value.vnum 1)]]
          (mkRecord [[("id", Value.vstr "x"), ("n", Value.vnum 1)]] 0).objAddr
          "n" (Value.vnum 5))
        (mkRecord [[("id", Value.vstr "x"), ("n", Value.vnum 1)]] 0).objAddr)
      "n" = some (Value.vnum 5) ∧
    strictEqO
      (getField
        (readObj
          (heapSetField [[("id", Value.vstr "x"), ("n", Value.vnum 1)]]
            (mkRecord [[("id", Value.vstr "x"), ("n", Value.vnum 1)]] 0).objAddr
            "n" (Value.vnum 5))
          (mkRecord [[("id", Value.vstr "x"), ("n", Value.vnum 1)]] 0).objAddr)
        "n")
      (some (Value.vnum 1)) = false :=
  ⟨rfl, rfl⟩

/-- C2 (amended): handles do not copy the field-set — they share the
underlying object by reference (`this.obj = obj`), so a mutation made
through one handle's object is immediately observable through any other
handle referencing the same object, before any `save()`.  Only the
top-level properties copied onto the handle at construction by
`Object.assign(this, obj)` (the `assigned` component) are a
construction-time snapshot. -/
theorem C2_amended (h : Heap) (rA rB : RecordH) (f : String) (v : Value)
    (hshare : rA.objAddr = rB.objAddr) (ha : rA.objAddr < h.length) :
    readObj (heapSetField h rA.objAddr f v) rB.objAddr =
      setField (readObj h rB.objAddr) f v ∧
    (mkRecord h rB.objAddr).assigned = readObj h rB.objAddr := by
  constructor
  · rw [← hshare]
    exact readObj_heapSetField_self h rA.objAddr f v ha
  · rfl

/-- C2 witness: two handles on the stored record at address 0; the
mutation through one is the object write the other observes. -/
theorem C2_witness :
    readObj
      (heapSetField [[("id", Value.vstr "x"), ("n", Value.vnum 1)]]
        (mkRecord [[("id", Value.vstr "x"), ("n", Value.vnum 1)]] 0).objAddr
        "n" (Value.vnum 5))
      (mkRecord [[("id", Value.vstr "x"), ("n", Value.vnum 1)]] 0).objAddr =
      setField
        (readObj [[("id", Value.vstr "x"), ("n", Value.vnum 1)]]
          (mkRecord [[("id", Value.vstr "x"), ("n", Value.vnum 1)]] 0).objAddr)
        "n" (Value.vnum 5) :=
  (C2_amended [[("id", Value.vstr "x"), ("n", Value.vnum 1)]]
    (mkRecord [[("id", Value.vstr "x"), ("n", Value.vnum 1)]] 0)
    (mkRecord [[("id", Value.vstr "x"), ("n", Value.vnum 1)]] 0)
    "n" (Value.vnum 5) rfl (by decide)).1

/-- C10: `create` mutates the caller's argument object in place (id and
both timestamps are written into it) and stores that same object — the
same reference, not a copy — as the canonical entry; consequently a later
mutation of the argument object changes the dereferenced canonical record
while the persisted file still holds the contents written by `create`
(no save happens). -/
theorem C10_create_mutates (h : Heap) (st : Collection) (a : Addr) (gen : Value)
    (now : Int) (f : String) (v : Value) (ha : a < h.length) :
    (create h st a gen now).2.1.data = st.data ++ [a] ∧
    readObj (create h st a gen now).1 a = createObj gen now (readObj h a) ∧
    (create h st a gen now).2.2.objAddr = a ∧
    (derefAll (heapSetField (create h st a gen now).1 a f v)
        ((create h st a gen now).2.1.data)).getLast? =
      some (setField (createObj gen now (readObj h a)) f v) ∧
    (create h st a gen now).2.1.file =
      some (stringify (derefAll (create h st a gen now).1
        (create h st a gen now).2.1.data)) := by
  have hlen' : a < ((create h st a gen now).1).length := by
    show a < (writeObj h a _).length
    unfold writeObj
    rw [List.length_set]
    exact ha
  refine ⟨rfl, readObj_writeObj_self h a _ ha, rfl, ?_, rfl⟩
  show (derefAll _ (st.data ++ [a])).getLast? = _
  unfold derefAll
  rw [List.map_append]
  simp only [List.map_cons, List.map_nil]
  rw [List.getLast?_concat]
  rw [readObj_heapSetField_self _ a f v hlen']
  exact congrArg (fun o => some (setField o f v)) (readObj_writeObj_self h a _ ha)

/-- C10 witness: creating `[("name","A")]` at address 0, then writing
field `n` into the caller's object, changes the canonical record's
dereferenced value with the persisted file unchanged. -/
theorem C10_witness :
    (derefAll
      (heapSetField (create [[("name", Value.vstr "A")]] ⟨[], none⟩ 0
        (Value.vstr "u") 7).1 0 "n" (Value.vnum 3))
      ((create [[("name", Value.vstr "A")]] ⟨[], none⟩ 0 (Value.vstr "u") 7).2.1.data)).getLast? =
    some (setField
      (createObj (Value.vstr "u") 7 (readObj [[("name", Value.vstr "A")]] 0))
      "n" (Value.vnum 3)) :=
  (C10_create_mutates [[("name", Value.vstr "A")]] ⟨[], none⟩ 0 (Value.vstr "u") 7
    "n" (Value.vnum 3) (by decide)).2.2.2.1

/-- C3: `save()` stamps `_updatedAt` on the handle's shared object with the
current time; the canonical entry is searched by strict id equality
(`findIndex` returns `none` exactly when no entry's id matches); when an
entry is found at index `i` it is overwritten in place with the handle's
object, every other position unchanged; when none matches the object is
appended at the end; the full collection is persisted and the very same
handle is returned. -/
theorem C3_save (h : Heap) (st : Collection) (r : RecordH) (now : Int)
    (ha : r.objAddr < h.length) :
    (saveRec h st r now).2.2 = r ∧
    getField (readObj (saveRec h st r now).1 r.objAddr) "_updatedAt" =
      some (.vnum now) ∧
    (List.findIdx? (savePred h r now) st.data = none ↔
      ∀ b ∈ st.data, savePred h r now b = false) ∧
    (∀ i, List.findIdx? (savePred h r now) st.data = some i →
      (saveRec h st r now).2.1.data = st.data.set i r.objAddr ∧
      ((saveRec h st r now).2.1.data).length = st.data.length ∧
      ∀ j, j ≠ i → ((saveRec h st r now).2.1.data)[j]? = st.data[j]?) ∧
    (List.findIdx? (savePred h r now) st.data = none →
      (saveRec h st r now).2.1.data = st.data ++ [r.objAddr]) ∧
    (saveRec h st r now).2.1.file =
      some (stringify (derefAll (saveRec h st r now).1 (saveRec h st r now).2.1.data)) := by
  refine ⟨rfl, ?_, List.findIdx?_eq_none_iff, ?_, ?_, rfl⟩
  · show getField (readObj (heapSetField h r.objAddr "_updatedAt" (.vnum now)) r.objAddr)
      "_updatedAt" = some (.vnum now)
    rw [readObj_heapSetField_self h r.objAddr _ _ ha, getField_setField_self]
  · intro i hi
    have hdata : (saveRec h st r now).2.1.data = st.data.set i r.objAddr := by
      show (match List.findIdx? (savePred h r now) st.data with
        | some i => st.data.set i r.objAddr
        | none => st.data ++ [r.objAddr]) = st.data.set i r.objAddr
      rw [hi]
    refine ⟨hdata, ?_, ?_⟩
    · rw [hdata, List.length_set]
    · intro j hj
      rw [hdata]
      exact List.getElem?_set_ne (fun he => hj he.symm)
  · intro hn
    show (match List.findIdx? (savePred h r now) st.data with
      | some i => st.data.set i r.objAddr
      | none => st.data ++ [r.objAddr]) = st.data ++ [r.objAddr]
    rw [hn]

/-- C3 witness: saving a handle on the single stored record overwrites the
matching canonical entry in place and stamps `_updatedAt` with the save
time. -/
theorem C3_witness :
    getField
      (readObj (saveRec [[("id", Value.vstr "x")]] ⟨[0], none⟩
        ⟨0, [("id", Value.vstr "x")]⟩ 9).1 0) "_updatedAt" = some (Value.vnum 9) ∧
    (saveRec [[("id", Value.vstr "x")]] ⟨[0], none⟩
      ⟨0, [("id", Value.vstr "x")]⟩ 9).2.1.data = [0].set 0 0 := by
  have hc := C3_save [[("id", Value.vstr "x")]] ⟨[0], none⟩
    ⟨0, [("id", Value.vstr "x")]⟩ 9 (by decide)
  exact ⟨hc.2.1, (hc.2.2.2.1 0 (by rfl)).1⟩

/-- C4: `delete()` removes every canonical entry whose id strict-equals the
handle's id and persists the collection; it is a total operation (no error
path), and a second delete — through the same handle or any handle whose
object carries the same id — is a no-op: the canonical sequence and the
persisted file are unchanged. -/
theorem C4_delete (h : Heap) (st : Collection) (r r2 : RecordH)
    (hid : getField (readObj h r2.objAddr) "id" = getField (readObj h r.objAddr) "id") :
    (deleteRec h st r).data =
      st.data.filter
        (fun b => !(idMatches h (getField (readObj h r.objAddr) "id") b)) ∧
    (deleteRec h st r).file = some (stringify (derefAll h (deleteRec h st r).data)) ∧
    deleteRec h (deleteRec h st r) r2 = deleteRec h st r := by
  refine ⟨rfl, rfl, ?_⟩
  unfold deleteRec collSave
  rw [hid]
  simp only []
  rw [List.filter_filter]
  have hand : (fun b =>
      !idMatches h (getField (readObj h r.objAddr) "id") b &&
        !idMatches h (getField (readObj h r.objAddr) "id") b) =
      (fun b => !idMatches h (getField (readObj h r.objAddr) "id") b) := by
    funext b
    rw [Bool.and_self]
  rw [hand]

/-- C4 witness: deleting the only record empties the canonical sequence;
deleting again through the same handle changes nothing. -/
theorem C4_witness :
    deleteRec [[("id", Value.vstr "x")]]
      (deleteRec [[("id", Value.vstr "x")]] ⟨[0], none⟩ ⟨0, [("id", Value.vstr "x")]⟩)
      ⟨0, [("id", Value.vstr "x")]⟩ =
    deleteRec [[("id", Value.vstr "x")]] ⟨[0], none⟩ ⟨0, [("id", Value.vstr "x")]⟩ :=
  (C4_delete [[("id", Value.vstr "x")]] ⟨[0], none⟩
    ⟨0, [("id", Value.vstr "x")]⟩ ⟨0, [("id", Value.vstr "x")]⟩ rfl).2.2

/-- C6: `orderBy(field, desc)` sorts the snapshot by the field's value —
ascending, or descending when `desc` — with a stable sort: the result is a
permutation of the snapshot, entries whose field strict-equals any given
value keep their relative input order, on numeric keys consecutive entries
are ordered by the key, and the two concrete examples of the claim
evaluate as stated. -/
theorem C6_orderBy :
    (orderBy "k" false
        [[("k", Value.vnum 1), ("n", Value.vstr "a")],
         [("k", Value.vnum 1), ("n", Value.vstr "b")],
         [("k", Value.vnum 2), ("n", Value.vstr "c")]] =
      [[("k", Value.vnum 1), ("n", Value.vstr "a")],
       [("k", Value.vnum 1), ("n", Value.vstr "b")],
       [("k", Value.vnum 2), ("n", Value.vstr "c")]]) ∧
    (orderBy "k" true
        [[("k", Value.vnum 1), ("n", Value.vstr "a")],
         [("k", Value.vnum 1), ("n", Value.vstr "b")],
         [("k", Value.vnum 2), ("n", Value.vstr "c")]] =
      [[("k", Value.vnum 2), ("n", Value.vstr "c")],
       [("k", Value.vnum 1), ("n", Value.vstr "a")],
       [("k", Value.vnum 1), ("n", Value.vstr "b")]]) ∧
    (∀ f desc s v, (orderBy f desc s).filter (fun r => strictEqO (getField r f) v) =
      s.filter (fun r => strictEqO (getField r f) v)) ∧
    (∀ f desc s, (orderBy f desc s).Perm s) ∧
    (∀ f desc s, (∀ r ∈ s, ∃ z : Int, getField r f = some (.vnum z)) →
      List.Pairwise
        (fun a b => ∀ za zb : Int, getField a f = some (.vnum za) →
          getField b f = some (.vnum zb) → (if desc then zb ≤ za else za ≤ zb))
        (orderBy f desc s)) := by
  refine ⟨rfl, rfl, ?_, fun f desc s => perm_sortComp _ s, ?_⟩
  · intro f desc s v
    unfold orderBy
    apply filter_sortComp
    intro a b hpa hpb
    have hha := strictEqO_true _ _ hpa
    have hhb := strictEqO_true _ _ hpb
    have hc := jsComp_self_key f desc a b (by rw [hha, hhb])
    simp [hc]
  · intro f desc s hnum
    unfold orderBy
    refine List.Pairwise.imp ?_
      (pairwise_sortComp _ (fun r => ∃ z : Int, getField r f = some (.vnum z)) ?_ ?_ s hnum)
    · intro a b hle za zb hza hzb
      have hle' : jsComp f desc a b ≤ 0 := by simpa using hle
      exact (jsComp_le_num f desc a b za zb hza hzb).mp hle'
    · rintro a b ⟨za, hza⟩ ⟨zb, hzb⟩
      simp only [decide_eq_true_eq, jsComp_le_num f desc a b za zb hza hzb,
        jsComp_le_num f desc b a zb za hzb hza]
      cases desc <;> simp <;> omega
    · rintro a b c ⟨za, hza⟩ ⟨zb, hzb⟩ ⟨zc, hzc⟩ hab hbc
      simp only [decide_eq_true_eq, jsComp_le_num f desc a b za zb hza hzb,
        jsComp_le_num f desc b c zb zc hzb hzc,
        jsComp_le_num f desc a c za zc hza hzc] at hab hbc ⊢
      cases desc <;> simp at hab hbc ⊢ <;> omega

/-- C6 witness: on a concrete all-numeric snapshot the sorted result is
pairwise ordered by the key. -/
theorem C6_witness :
    List.Pairwise
      (fun a b => ∀ za zb : Int, getField a "k" = some (Value.vnum za) →
        getField b "k" = some (Value.vnum zb) → (if false then zb ≤ za else za ≤ zb))
      (orderBy "k" false [[("k", Value.vnum 2)], [("k", Value.vnum 1)]]) := by
  refine C6_orderBy.2.2.2.2 "k" false [[("k", Value.vnum 2)], [("k", Value.vnum 1)]] ?_
  intro r hr
  simp only [List.mem_cons, List.not_mem_nil, or_false] at hr
  rcases hr with rfl | rfl
  · exact ⟨2, rfl⟩
  · exact ⟨1, rfl⟩
